import Mathlib

/-!
Verification development for the bcoin consensus/sync core.

Each component of the source (script interpreter in `lib/bcoin/utils.js`,
wire framer in `lib/bcoin/protocol/framer.js`, chain store in
`lib/bcoin/chaindb.js`, peer pool in `lib/bcoin/pool.js`, mempool in the
unnamed mempool source file) is shallowly embedded below: JS arrays become
Lean lists, JS numbers become `Nat`/`Int` with explicit truncation where the
source truncates, JS objects become structures, and in-place mutation
becomes explicit state passing.  Where the repository's `protocol/constants.js`,
`protocol/network.js`, `chain.js` and `peer.js` are not present in the
source tree, the corresponding constants and functions are modelled from the
specification and marked as such in their doc comments.
-/

namespace Script

/-- A stack item: the source represents items as JS arrays of byte numbers
(`-1` can appear, pushed by `1negate`). The JS array order is kept: the top
of the stack is the LAST element, as in the source's `stack.push`/`stack.pop`. -/
abbrev Item := List Int

/-- The pushdata opcodes named by the string values used in the source
(`'pushdata1'`, `'pushdata2'`, `'pushdata4'`). -/
inductive PDOpcode
  | pushdata1
  | pushdata2
  | pushdata4
deriving DecidableEq, Repr

/-- The hidden `pushdata` record attached by `script.decode` to decoded push
arrays: `opcode` is `null` for direct pushes `0x01..0x4b`, and `len` is the
length byte(s) read from the wire. -/
structure PushdataAnn where
  opcode : Option PDOpcode
  len : Nat
deriving DecidableEq, Repr

/-- The opcode strings of `script.execute`'s switch that this embedding
covers (the non-crypto subset exercised by the claims, plus `hash160` which
`script.isScripthash` inspects). Opcode bytes outside this subset decode to
`Instr.raw`. -/
inductive OpName
  | nop
  | neg1
  | ifOp
  | notifOp
  | elseOp
  | endifOp
  | verifyOp
  | returnOp
  | drop
  | dup
  | equal
  | equalverify
  | hash160
  | pushdata1
  | pushdata2
  | pushdata4
deriving DecidableEq, Repr

/-- A decoded script instruction, mirroring the representation produced by
`script.decode`: a push is a JS array of bytes (with its hidden pushdata
record), `OP_1..OP_16` decode to number literals, known opcodes decode to
strings, and unknown opcode bytes stay as raw numbers. -/
inductive Instr
  | push (data : List Int) (ann : Option PushdataAnn)
  | num (n : Nat)
  | op (o : OpName)
  | raw (b : Nat)
deriving DecidableEq, Repr

/-- The `flags` object passed to `script.execute`/`script.verify`: each field
is tri-state because the source tests `flags.x !== false` or
`flags.x === false` on a plain JS object whose fields may be `undefined`. -/
structure Flags where
  sigpushonly : Option Bool := none
  verifyp2sh : Option Bool := none
  cleanstack : Option Bool := none
  minimaldata : Option Bool := none
  discourage_nops : Option Bool := none
deriving DecidableEq, Repr

/-- Modelled from the spec: `constants.script.maxOps` (the source file
`protocol/constants.js` is not in src/). The spec gives a per-script op
count bound of 201. -/
def maxOps : Nat := 201

/-- Modelled from the spec: `constants.script.maxPush` = 520
(`protocol/constants.js` is not in src/). -/
def maxPush : Nat := 520

/-- Modelled from the spec: `constants.script.maxStack` = 1000
(`protocol/constants.js` is not in src/). -/
def maxStack : Nat := 1000

/-- Model of `script.bool` (utils.js): scan for the first nonzero byte; a
lone sign bit `0x80` in the last position is negative zero, hence false. -/
def bool : Item → Bool
  | [] => false
  | [v] => if v ≠ 0 then v ≠ 0x80 else false
  | v :: w :: rest => if v ≠ 0 then true else bool (w :: rest)

/-- Model of `utils.isEqual`: elementwise strict equality with a length
check. -/
def isEqual : Item → Item → Bool
  | [], [] => true
  | a :: as, b :: bs => a = b && isEqual as bs
  | _, _ => false

/-- A JS value appearing in `script.checkPush`'s `op` local after
`op = op.pushdata.opcode || op.pushdata.len`: either one of the strings
`'pushdata1'/'pushdata2'/'pushdata4'` or the numeric length. -/
inductive PDOpv
  | str (o : PDOpcode)
  | len (n : Nat)
deriving DecidableEq, Repr

/-- JS `+op` coercion for `PDOpv`: numbers stay themselves, the pushdata
strings coerce to NaN (represented as `none`). -/
def pdToNum : PDOpv → Option Nat
  | .str _ => none
  | .len n => some n

/-- The `value` parameter of `script.checkPush`. The call site in
`script.execute` passes the flags object in this position (the call is
`script.checkPush(o, flags)` against the three-parameter signature
`checkPush(op, value, flags)`), so the model carries both shapes. -/
inductive CPValue
  | arr (a : List Int)
  | flagsObj (f : Flags)
deriving DecidableEq, Repr

/-- JS `value.length` for a `CPValue`: `undefined` (none) on the flags
object. -/
def cpLen : CPValue → Option Nat
  | .arr a => some a.length
  | .flagsObj _ => none

/-- JS `value[0]` for a `CPValue`: `undefined` (none) on the flags object or
an empty array. -/
def cpAt0 : CPValue → Option Int
  | .arr a => a.head?
  | .flagsObj _ => none

/-- Model of `script.checkPush(op, value, flags)` (utils.js:2438). `ann` is
`op.pushdata`; every comparison follows JS strict-equality/coercion rules:
comparisons against `undefined` are false, `+op` on a pushdata string is
NaN. -/
def checkPush (ann : Option PushdataAnn) (value : CPValue) (flags? : Option Flags) : Bool :=
  let flags := flags?.getD {}
  if flags.minimaldata = some false then true
  else
    match ann with
    | none => true
    | some pd =>
      let op : PDOpv := match pd.opcode with
        | some o => .str o
        | none => .len pd.len
      if cpLen value = some 1 && cpAt0 value = some 0 then
        -- `return op === '0'`: op is a pushdata string or a number, never '0'
        false
      else if cpLen value = some 1 && (cpAt0 value).any (fun v => 1 ≤ v && v ≤ 16) then
        (pdToNum op).any (fun n => 1 ≤ n && n ≤ 16)
      else if cpLen value = some 1 && cpAt0 value = some (-1) then
        -- `return op === '1negate'`: never equal for a pushdata record
        false
      else if (cpLen value).any (· ≤ 75) then
        (pdToNum op).any (fun n => cpLen value = some n)
      else if (cpLen value).any (· ≤ 255) then
        op = .str .pushdata1
      else if (cpLen value).any (· ≤ 65535) then
        op = .str .pushdata2
      else
        true

/-- Model of `script.isPushOnly` (utils.js:3404): arrays, `'1negate'` and
numbers `1..16` pass; every other instruction returns false (both branches
of the final test in the source return false). -/
def isPushOnly : List Instr → Bool
  | [] => true
  | i :: rest =>
    match i with
    | .push _ _ => isPushOnly rest
    | .op .neg1 => isPushOnly rest
    | .num n => if 1 ≤ n && n ≤ 16 then isPushOnly rest else false
    | .raw b => if 1 ≤ b && b ≤ 16 then isPushOnly rest else false
    | .op _ => false

/-- Model of `script.isHash` (utils.js): a 20-byte array. -/
def isHash : Instr → Bool
  | .push data _ => data.length = 20
  | _ => false

/-- Model of `script.isScripthash(s)` without the optional `hash` argument
(utils.js:2897): exactly `[hash160, 20-byte push, equal]`. -/
def isScripthash (s : List Instr) : Bool :=
  match s with
  | [a, b, c] => a = .op .hash160 && isHash b && c = .op .equal
  | _ => false

end Script

namespace Script

/-- Splice out `cnt` elements of `s` starting at `start`, as JS
`s.splice(start, cnt)` does for in-range nonnegative arguments. -/
def splice (s : List Instr) (start cnt : Nat) : List Instr :=
  s.take start ++ s.drop (start + cnt)

/-- The depth update at the top of `script._next`'s loop body:
`if`/`notif` increment, `else` and `endif` decrement. -/
def bumpDepth (o : Instr) (depth : Int) : Int :=
  if o = .op .ifOp || o = .op .notifOp then depth + 1
  else if o = .op .elseOp then depth - 1
  else if o = .op .endifOp then depth - 1
  else depth

/-- The second depth update of `script._next`'s loop body: `else` is
re-incremented after the match test. -/
def bumpElse (o : Instr) (d : Int) : Int :=
  if o = .op .elseOp then d + 1 else d

/-- Model of `script._next(to, s, pc)` (utils.js:1651): scan forward for the
matching `to` opcode at nesting depth 0, maintaining the same depth updates
as the source; `none` models the `-1` result. -/
def nextOp (tgt : OpName) (s : List Instr) (pc : Nat) (depth : Int) : Option Nat :=
  if h : pc < s.length then
    if bumpDepth (s.getD pc (.raw 0)) depth < 0 then none
    else if bumpDepth (s.getD pc (.raw 0)) depth = 0 && s.getD pc (.raw 0) = .op tgt then some pc
    else nextOp tgt s (pc + 1) (bumpElse (s.getD pc (.raw 0)) (bumpDepth (s.getD pc (.raw 0)) depth))
  else none
termination_by s.length - pc

/-- The index returned by `nextOp` is within bounds and not before `pc`. -/
theorem nextOp_bounds (tgt : OpName) (s : List Instr) :
    ∀ n pc depth r, s.length - pc ≤ n → nextOp tgt s pc depth = some r →
      pc ≤ r ∧ r < s.length := by
  intro n
  induction n with
  | zero =>
    intro pc depth r hle heq
    rw [nextOp, dif_neg (by omega)] at heq
    exact absurd heq (by simp)
  | succ n ih =>
    intro pc depth r hle heq
    rw [nextOp] at heq
    by_cases h : pc < s.length
    · rw [dif_pos h] at heq
      split at heq
      · exact absurd heq (by simp)
      · split at heq
        · exact ⟨le_of_eq (Option.some.inj heq), (Option.some.inj heq) ▸ h⟩
        · have := ih (pc + 1) _ r (by omega) heq
          exact ⟨by omega, this.2⟩
    · rw [dif_neg h] at heq
      exact absurd heq (by simp)

/-- The statement-block removal performed by the `if`/`notif` case of
`script.execute` (utils.js:1749-1769), with `if_` the current pc. A `none`
result models the `return false` taken when `endif` is `-1`. -/
def spliceIf (s : List Instr) (pcIf : Nat) (val : Bool)
    (elseIx endifIx : Option Nat) : Option (List Instr) :=
  if val then
    match endifIx with
    | none => none
    | some endif =>
      match elseIx with
      | none => some (splice (splice s endif 1) pcIf 1)
      | some e => some (splice (splice s e (endif - e + 1)) pcIf 1)
  else
    match endifIx with
    | none => none
    | some endif =>
      match elseIx with
      | none => some (splice s pcIf (endif - pcIf + 1))
      | some e => some (splice (splice s endif 1) pcIf (e - pcIf + 1))

theorem splice_length (s : List Instr) (a n : Nat) :
    (splice s a n).length = min a s.length + (s.length - (a + n)) := by
  simp [splice]

theorem splice_length_lt (s : List Instr) (a n : Nat) (ha : a < s.length)
    (hn : 1 ≤ n) : (splice s a n).length < s.length := by
  rw [splice_length]; omega

theorem splice_length_le (s : List Instr) (a n : Nat) :
    (splice s a n).length ≤ s.length := by
  rw [splice_length]; omega

/-- With a found `endif` index, `spliceIf` always succeeds. -/
theorem spliceIf_isSome (s : List Instr) (pcIf endif : Nat) (val : Bool)
    (elseIx : Option Nat) :
    ∃ s2, spliceIf s pcIf val elseIx (some endif) = some s2 := by
  rcases val with _ | _ <;> rcases elseIx with _ | e <;> exact ⟨_, rfl⟩

/-- A successful `spliceIf` with indices coming from `nextOp` strictly
shrinks the script; this bounds the interpreter loop. -/
theorem spliceIf_length_lt (s s' : List Instr) (pcIf : Nat) (val : Bool)
    (h : pcIf < s.length)
    (hs : spliceIf s pcIf val (nextOp .elseOp s pcIf 0) (nextOp .endifOp s pcIf 0) = some s') :
    s'.length < s.length := by
  unfold spliceIf at hs
  rcases hend : nextOp .endifOp s pcIf 0 with _ | endif <;> rw [hend] at hs
  · rcases val with _ | _ <;> simp at hs
  have hbe := nextOp_bounds .endifOp s _ pcIf 0 endif le_rfl hend
  rcases helse : nextOp .elseOp s pcIf 0 with _ | e <;> rw [helse] at hs
  · rcases val with _ | _ <;> simp at hs <;> rw [← hs]
    · exact splice_length_lt _ _ _ h (by omega)
    · calc (splice (splice s endif 1) pcIf 1).length
          ≤ (splice s endif 1).length := splice_length_le _ _ _
        _ < s.length := splice_length_lt _ _ _ hbe.2 le_rfl
  · have hbl := nextOp_bounds .elseOp s _ pcIf 0 e le_rfl helse
    rcases val with _ | _ <;> simp at hs <;> rw [← hs]
    · calc (splice (splice s endif 1) pcIf (e - pcIf + 1)).length
          ≤ (splice s endif 1).length := splice_length_le _ _ _
        _ < s.length := splice_length_lt _ _ _ hbe.2 le_rfl
    · calc (splice (splice s e (endif - e + 1)) pcIf 1).length
          ≤ (splice s e (endif - e + 1)).length := splice_length_le _ _ _
        _ < s.length := splice_length_lt _ _ _ hbl.2 (by omega)

/-- The form of the previous lemma used by the interpreter loop's
termination argument. -/
theorem spliceIf_getD_length_lt (s : List Instr) (pcIf : Nat) (val : Bool)
    (h : pcIf < s.length) (hend : ¬ nextOp .endifOp s pcIf 0 = none) :
    ((spliceIf s pcIf val (nextOp .elseOp s pcIf 0) (nextOp .endifOp s pcIf 0)).getD []).length
      < s.length := by
  rcases hnd : nextOp .endifOp s pcIf 0 with _ | endif
  · exact absurd hnd hend
  obtain ⟨s2, hs2⟩ := spliceIf_isSome s pcIf endif val (nextOp .elseOp s pcIf 0)
  have hs2a : spliceIf s pcIf val (nextOp .elseOp s pcIf 0) (nextOp .endifOp s pcIf 0)
      = some s2 := by rw [hnd]; exact hs2
  rw [hs2, Option.getD_some]
  exact spliceIf_length_lt s s2 pcIf val h hs2a

end Script

namespace Script

/-- Model of the interpreter loop of `script.execute` (utils.js:1704-2315)
over the embedded opcode subset. The JS `stack` array (and its `alt`
expando) is mutated in place by the source even on failing runs, so the
model returns the final stacks next to the boolean result. `ripesha` stands
for the RIPEMD160-of-SHA256 primitive `utils.ripesha` (treated as an opaque
function, as the spec directs for hash primitives). -/
def execLoop (flags : Flags) (ripesha : Item → Item) (s : List Instr) (pc : Nat)
    (stack alt : List Item) : Bool × List Item × List Item :=
  if h : pc < s.length then
    match s.getD pc (.raw 0) with
    | .push data ann =>
      if data.length > maxPush then (false, stack, alt)
      else if checkPush ann (.flagsObj flags) none = false then (false, stack, alt)
      else execLoop flags ripesha s (pc + 1) (stack ++ [data]) alt
    | .num n =>
      if 1 ≤ n && n ≤ 16 then execLoop flags ripesha s (pc + 1) (stack ++ [[(n : Int)]]) alt
      else (false, stack, alt)
    | .raw b =>
      if 1 ≤ b && b ≤ 16 then execLoop flags ripesha s (pc + 1) (stack ++ [[(b : Int)]]) alt
      else (false, stack, alt)
    | .op .nop =>
      if flags.discourage_nops ≠ some false then (false, stack, alt)
      else execLoop flags ripesha s (pc + 1) stack alt
    | .op .neg1 => execLoop flags ripesha s (pc + 1) (stack ++ [[-1]]) alt
    | .op .ifOp =>
      if stack.length < 1 then (false, stack, alt)
      else if hend : nextOp .endifOp s pc 0 = none then (false, stack.dropLast, alt)
      else
        execLoop flags ripesha
          ((spliceIf s pc (bool (stack.getLast?.getD []))
              (nextOp .elseOp s pc 0) (nextOp .endifOp s pc 0)).getD [])
          pc stack.dropLast alt
    | .op .notifOp =>
      if stack.length < 1 then (false, stack, alt)
      else if hend : nextOp .endifOp s pc 0 = none then (false, stack.dropLast, alt)
      else
        execLoop flags ripesha
          ((spliceIf s pc (! bool (stack.getLast?.getD []))
              (nextOp .elseOp s pc 0) (nextOp .endifOp s pc 0)).getD [])
          pc stack.dropLast alt
    | .op .elseOp => (false, stack, alt)
    | .op .endifOp => (false, stack, alt)
    | .op .verifyOp =>
      if stack.length = 0 then (false, stack, alt)
      else if bool (stack.getLast?.getD []) = false then (false, stack.dropLast, alt)
      else execLoop flags ripesha s (pc + 1) stack.dropLast alt
    | .op .returnOp => (false, stack, alt)
    | .op .drop =>
      if stack.length = 0 then (false, stack, alt)
      else execLoop flags ripesha s (pc + 1) stack.dropLast alt
    | .op .dup =>
      if stack.length = 0 then (false, stack, alt)
      else execLoop flags ripesha s (pc + 1) (stack ++ [stack.getLast?.getD []]) alt
    | .op .equal =>
      if stack.length < 2 then (false, stack, alt)
      else
        execLoop flags ripesha s (pc + 1)
          (stack.dropLast.dropLast ++
            [if isEqual (stack.getLast?.getD []) (stack.dropLast.getLast?.getD []) then [1]
             else []]) alt
    | .op .equalverify =>
      if stack.length < 2 then (false, stack, alt)
      else
        if isEqual (stack.getLast?.getD []) (stack.dropLast.getLast?.getD []) then
          execLoop flags ripesha s (pc + 1) stack.dropLast.dropLast alt
        else (false, stack.dropLast.dropLast, alt)
    | .op .hash160 =>
      if stack.length = 0 then (false, stack, alt)
      else execLoop flags ripesha s (pc + 1) (stack.dropLast ++ [ripesha (stack.getLast?.getD [])]) alt
    | .op .pushdata1 => (false, stack, alt)
    | .op .pushdata2 => (false, stack, alt)
    | .op .pushdata4 => (false, stack, alt)
  else
    if stack.length + alt.length > maxStack then (false, stack, alt)
    else (true, stack, alt)
termination_by 2 * s.length - pc
decreasing_by
  all_goals simp_wf
  all_goals first
    | omega
    | (have hlt := spliceIf_getD_length_lt s pc (bool (stack.getLast?.getD [])) h hend; omega)
    | (have hlt := spliceIf_getD_length_lt s pc (! bool (stack.getLast?.getD [])) h hend; omega)

/-- Model of `script.execute` (utils.js:1680): defaulting of `flags`, the
`maxOps` length gate, then the interpreter loop from pc 0. -/
def execute (ripesha : Item → Item) (data : List Instr) (stack alt : List Item)
    (flags? : Option Flags) : Bool × List Item × List Item :=
  let flags := flags?.getD {}
  if data.length > maxOps then (false, stack, alt)
  else execLoop flags ripesha data 0 stack alt

/-- Modelled from the spec: the opcode byte to name table
(`constants.opcodesByVal`; `protocol/constants.js` is not in src/)
restricted to the embedded opcode subset, with the standard Bitcoin opcode
byte values given by the spec's byte-level contract. -/
def opcodesByVal (b : Nat) : Option OpName :=
  if b = 0x4c then some .pushdata1
  else if b = 0x4d then some .pushdata2
  else if b = 0x4e then some .pushdata4
  else if b = 0x4f then some .neg1
  else if b = 0x61 then some .nop
  else if b = 0x63 then some .ifOp
  else if b = 0x64 then some .notifOp
  else if b = 0x67 then some .elseOp
  else if b = 0x68 then some .endifOp
  else if b = 0x69 then some .verifyOp
  else if b = 0x6a then some .returnOp
  else if b = 0x75 then some .drop
  else if b = 0x76 then some .dup
  else if b = 0x87 then some .equal
  else if b = 0x88 then some .equalverify
  else if b = 0xa9 then some .hash160
  else none

/-- The instruction pushed by `script.decode` when an opcode byte ends the
script or is not a pushdata: `opcodes.push(opcode || b)` keeps the name when
the table knows the byte and the raw byte otherwise. -/
def instrOfOpcode (opcode : Option OpName) (b : Nat) : Instr :=
  match opcode with
  | some o => .op o
  | none => .raw b

/-- Model of `script.decode` (utils.js:1328) over byte lists. Direct pushes
`0x01..0x4b` and `pushdata1/2/4` record their hidden `pushdata` annotation;
`0x00` pushes a plain empty array; `0x51..0x60` become number literals.
`utils.readU16` reads a missing byte as 0 (JS `undefined` coerces to 0 under
the bit operators used there). -/
def decode : List Int → List Instr
  | [] => []
  | b :: rest =>
    if 1 ≤ b && b ≤ 0x4b then
      .push (rest.take b.toNat) (some ⟨none, b.toNat⟩) :: decode (rest.drop b.toNat)
    else if b = 0 then
      .push [] none :: decode rest
    else if 0x51 ≤ b && b ≤ 0x60 then
      .num (b - 0x50).toNat :: decode rest
    else
      match rest with
      | [] => [instrOfOpcode (opcodesByVal b.toNat) b.toNat]
      | c :: rest2 =>
        match opcodesByVal b.toNat with
        | some .pushdata1 =>
          .push (rest2.take c.toNat) (some ⟨some .pushdata1, c.toNat⟩) ::
            decode (rest2.drop c.toNat)
        | some .pushdata2 =>
          .push ((rest2.drop 1).take (c.toNat + 256 * (rest2.head?.getD 0).toNat))
              (some ⟨some .pushdata2, c.toNat + 256 * (rest2.head?.getD 0).toNat⟩) ::
            decode ((rest2.drop 1).drop (c.toNat + 256 * (rest2.head?.getD 0).toNat))
        | some .pushdata4 =>
          .push ((rest2.drop 3).take (c.toNat + 256 * (rest2.head?.getD 0).toNat
                + 65536 * ((rest2.drop 1).head?.getD 0).toNat
                + 16777216 * ((rest2.drop 2).head?.getD 0).toNat))
              (some ⟨some .pushdata4, c.toNat + 256 * (rest2.head?.getD 0).toNat
                + 65536 * ((rest2.drop 1).head?.getD 0).toNat
                + 16777216 * ((rest2.drop 2).head?.getD 0).toNat⟩) ::
            decode ((rest2.drop 3).drop (c.toNat + 256 * (rest2.head?.getD 0).toNat
                + 65536 * ((rest2.drop 1).head?.getD 0).toNat
                + 16777216 * ((rest2.drop 2).head?.getD 0).toNat))
        | o => instrOfOpcode o b.toNat :: decode (c :: rest2)
termination_by s => s.length
decreasing_by
  all_goals simp_wf
  all_goals omega

/-- Model of `script.verify` (utils.js:1507). The input script's execution
result is discarded by the source; only its stack effect is kept. In this
embedding every stack item is an array, so the `Array.isArray(redeem)` test
of the P2SH branch always passes. -/
def verify (ripesha : Item → Item) (input output : List Instr) (flags? : Option Flags) : Bool :=
  let flags := flags?.getD {}
  if flags.sigpushonly ≠ some false && isPushOnly input = false then false
  else
    let r1 := execute ripesha input [] [] (some flags)
    let copy := r1.2.1
    let r2 := execute ripesha output r1.2.1 r1.2.2 (some flags)
    if r2.1 = false || r2.2.1.length = 0 || bool (r2.2.1.getLast?.getD []) = false then false
    else
      if flags.verifyp2sh ≠ some false && isScripthash output then
        if isPushOnly input = false then false
        else if copy.length = 0 then false
        else
          let redeem := decode (copy.getLast?.getD [])
          let r3 := execute ripesha redeem copy.dropLast [] (some flags)
          if r3.1 = false || r3.2.1.length = 0 || bool (r3.2.1.getLast?.getD []) = false then
            false
          else if flags.cleanstack ≠ some false && r3.2.1.dropLast.length ≠ 0 then false
          else true
      else
        if flags.cleanstack ≠ some false && r2.2.1.dropLast.length ≠ 0 then false
        else true

end Script

namespace Framer

/-- Model of `utils.writeU32` (utils.js:1067): store `num` little-endian in
four consecutive slots of `dst`. The source first coerces with `+num` and
each byte is `(num >>> shift) & 0xff`, i.e. the JS `ToUint32` truncation
made explicit as `% 2 ^ 32`. -/
def writeU32 (dst : List Nat) (num off : Nat) : List Nat :=
  ((((dst.set (off + 3) (num % 2 ^ 32 / 2 ^ 24 % 256)).set
      (off + 2) (num % 2 ^ 32 / 2 ^ 16 % 256)).set
      (off + 1) (num % 2 ^ 32 / 2 ^ 8 % 256)).set
      off (num % 2 ^ 32 % 256))

/-- Model of `utils.writeAscii` (utils.js:192): write `str`'s char codes
masked to bytes at consecutive offsets. The returned count of the source is
`str.length`. -/
def writeAscii (dst : List Nat) (str : List Nat) (off : Nat) : List Nat :=
  match str with
  | [] => dst
  | c :: cs => writeAscii (dst.set off (c % 256)) cs (off + 1)

/-- The command padding loop of `Framer.prototype.header`
(`for (i = 4 + len; i < 4 + 12; i++) h[i] = 0`), with the iteration count
made structural. -/
def padZeros (dst : List Nat) (i : Nat) : Nat → List Nat
  | 0 => dst
  | n + 1 => padZeros (dst.set i 0) (i + 1) n

/-- Model of the index loop of `utils.copy(src, dst, off)` (utils.js:241)
applied to `n` source elements; the sets target distinct slots, so applying
them from the highest index down is equivalent to the source's ascending
loop. -/
def copyLoop (src dst : List Nat) (off : Nat) : Nat → List Nat
  | 0 => dst
  | n + 1 => (copyLoop src dst off n).set (off + n) (src.getD n 0)

/-- Model of `utils.copy(src, dst, off)` without the `force` flag: the
copied length is `min (dst.length - off) src.length`. -/
def copy (src dst : List Nat) (off : Nat) : List Nat :=
  copyLoop src dst off (min (dst.length - off) src.length)

/-- Model of `utils.dsha256` with the SHA-256 primitive abstract (the spec
treats hash primitives as assumed available). -/
def dsha256 (sha256 : List Nat → List Nat) (data : List Nat) : List Nat :=
  sha256 (sha256 data)

/-- Model of `utils.checksum`: the first four bytes of SHA-256d. -/
def checksum (sha256 : List Nat → List Nat) (data : List Nat) : List Nat :=
  (dsha256 sha256 data).take 4

/-- Model of `Framer.prototype.header(cmd, payload)` (framer.js:29). The
JS `new Array(24)` is modelled as 24 zero slots; under the source's
`assert(cmd.length < 12)` every slot is written before being read. `magic`
stands for `network.magic` (`protocol/network.js` is not in src/). -/
def header (sha256 : List Nat → List Nat) (magic : Nat) (cmd payload : List Nat) : List Nat :=
  let h0 := List.replicate 24 0
  let h1 := writeU32 h0 magic 0
  let h2 := writeAscii h1 cmd 4
  let h3 := padZeros h2 (4 + cmd.length) (16 - (4 + cmd.length))
  let h4 := writeU32 h3 payload.length 16
  copy (checksum sha256 payload) h4 20

/-- Model of `Framer.prototype.packet(cmd, payload)` (framer.js:53). -/
def packet (sha256 : List Nat → List Nat) (magic : Nat) (cmd payload : List Nat) : List Nat :=
  header sha256 magic cmd payload ++ payload

/-- The four little-endian bytes of a 32-bit truncated integer; used to
state the wire layout. -/
def u32le (n : Nat) : List Nat :=
  [n % 2 ^ 32 % 256, n % 2 ^ 32 / 2 ^ 8 % 256, n % 2 ^ 32 / 2 ^ 16 % 256, n % 2 ^ 32 / 2 ^ 24 % 256]

theorem length_writeU32 (dst : List Nat) (num off : Nat) :
    (writeU32 dst num off).length = dst.length := by
  simp [writeU32]

theorem length_writeAscii (str : List Nat) :
    ∀ dst off, (writeAscii dst str off).length = dst.length := by
  induction str with
  | nil => intro dst off; rfl
  | cons c cs ih => intro dst off; rw [writeAscii, ih]; simp

theorem length_padZeros (n : Nat) :
    ∀ (dst : List Nat) (i : Nat), (padZeros dst i n).length = dst.length := by
  induction n with
  | zero => intro dst i; rfl
  | succ n ih => intro dst i; rw [padZeros, ih]; simp

theorem length_copyLoop (src : List Nat) (off : Nat) (n : Nat) :
    ∀ dst, (copyLoop src dst off n).length = dst.length := by
  induction n with
  | zero => intro dst; rfl
  | succ n ih => intro dst; rw [copyLoop]; simp [ih]

theorem getElem?_writeU32 (dst : List Nat) (num off i : Nat) (h : off + 4 ≤ dst.length) :
    (writeU32 dst num off)[i]? =
      if i = off then some (num % 2 ^ 32 % 256)
      else if i = off + 1 then some (num % 2 ^ 32 / 2 ^ 8 % 256)
      else if i = off + 2 then some (num % 2 ^ 32 / 2 ^ 16 % 256)
      else if i = off + 3 then some (num % 2 ^ 32 / 2 ^ 24 % 256)
      else dst[i]? := by
  simp only [writeU32, List.getElem?_set, List.length_set]
  split_ifs <;> first | rfl | omega

theorem getElem?_writeAscii (str : List Nat) :
    ∀ dst off i, off + str.length ≤ dst.length →
      (writeAscii dst str off)[i]? =
        if off ≤ i ∧ i < off + str.length then (str[i - off]?).map (· % 256) else dst[i]? := by
  induction str with
  | nil =>
    intro dst off i h
    rw [writeAscii]
    rw [if_neg (by simp only [List.length_nil]; omega)]
  | cons c cs ih =>
    intro dst off i h
    simp only [List.length_cons] at h
    rw [writeAscii]
    rw [ih (dst.set off (c % 256)) (off + 1) i (by simp only [List.length_set]; omega)]
    rw [List.getElem?_set]
    by_cases h1 : off + 1 ≤ i ∧ i < off + 1 + cs.length
    · rw [if_pos h1, if_pos (by simp only [List.length_cons]; omega)]
      rw [List.getElem?_cons, if_neg (by omega)]
      congr 2 <;> omega
    · by_cases h2 : i = off
      · rw [if_neg h1, if_pos h2.symm, if_pos (by omega),
          if_pos (by simp only [List.length_cons]; omega)]
        rw [List.getElem?_cons, if_pos (by omega)]
        rfl
      · rw [if_neg h1, if_neg (by omega), if_neg (by simp only [List.length_cons]; omega)]

theorem getElem?_padZeros (n : Nat) :
    ∀ (dst : List Nat) (ioff i : Nat), ioff + n ≤ dst.length →
      (padZeros dst ioff n)[i]? =
        if ioff ≤ i ∧ i < ioff + n then some 0 else dst[i]? := by
  induction n with
  | zero =>
    intro dst ioff i h
    rw [padZeros]
    rw [if_neg (by omega)]
  | succ n ih =>
    intro dst ioff i h
    rw [padZeros]
    rw [ih (dst.set ioff 0) (ioff + 1) i (by simp; omega)]
    rw [List.getElem?_set]
    split_ifs <;> first | rfl | omega

theorem getElem?_copyLoop (src : List Nat) (off : Nat) (n : Nat) :
    ∀ (dst : List Nat) (i : Nat), off + n ≤ dst.length →
      (copyLoop src dst off n)[i]? =
        if off ≤ i ∧ i < off + n then some (src.getD (i - off) 0) else dst[i]? := by
  induction n with
  | zero =>
    intro dst i h
    rw [copyLoop]
    rw [if_neg (by omega)]
  | succ n ih =>
    intro dst i h
    rw [copyLoop]
    rw [List.getElem?_set, length_copyLoop]
    rw [ih dst i (by omega)]
    split_ifs <;> first | rfl | omega | (congr 2; omega)

theorem length_u32le (n : Nat) : (u32le n).length = 4 := rfl

theorem getElem?_u32le (m k : Nat) :
    (u32le m)[k]? =
      if k = 0 then some (m % 2 ^ 32 % 256)
      else if k = 1 then some (m % 2 ^ 32 / 2 ^ 8 % 256)
      else if k = 2 then some (m % 2 ^ 32 / 2 ^ 16 % 256)
      else if k = 3 then some (m % 2 ^ 32 / 2 ^ 24 % 256)
      else none := by
  simp only [u32le, List.getElem?_cons]
  split_ifs <;> first | rfl | omega

end Framer

/-! ### ChainDB: block connect/disconnect over the coin and undo keyspaces
(src/lib/bcoin/chaindb.js) and the h/ height record written by save.

The model covers the non-SPV path with indexTX, indexAddress and pruning
disabled (those options only add records in other keyspaces). connectBlock
is modelled past its genesis guard: the claim quantifies over non-genesis
blocks only. Batch operations on the c/ (coin-by-outpoint) and u/
(undo-by-block-hash) keyspaces are collected as an operation list and
applied to a store in order. -/

namespace ChainDB

/-- A c/ key: referenced output, hash and index (chaindb.js key =
input.prevout.hash + the slash + input.prevout.index). -/
structure Outpoint where
  hash : Nat
  index : Nat
deriving DecidableEq

/-- A database key of the two keyspaces the claim is about: c/outpoint or
u/blockhash. -/
inductive Key where
  | coin (o : Outpoint)
  | undo (blockHash : Nat)
deriving DecidableEq

/-- A stored value: a serialized coin (coin.toRaw(), abstracted to its
byte content) or an undo record (the Framer.coin serializations the
BufferWriter accumulated, in order). -/
inductive Val where
  | coin (raw : Nat)
  | undo (coins : List Nat)
deriving DecidableEq

/-- A batch operation, batch.put or batch.del. -/
inductive Op where
  | put (k : Key) (v : Val)
  | del (k : Key)
deriving DecidableEq

/-- The key an operation touches. -/
def Op.key : Op → Key
  | .put k _ => k
  | .del k => k

/-- One batch operation applied to the store. -/
def applyOp (m : Key → Option Val) : Op → (Key → Option Val)
  | .put k v => fun k2 => if k2 = k then some v else m k2
  | .del k => fun k2 => if k2 = k then none else m k2

/-- A batch applied in order. -/
def applyOps (m : Key → Option Val) (ops : List Op) : Key → Option Val :=
  ops.foldl applyOp m

/-- A transaction input as connectBlock sees it: the referenced outpoint
and the coin the input was filled with (input.coin, abstracted to its
serialization). -/
structure TxIn where
  prevout : Outpoint
  coin : Nat
deriving DecidableEq

/-- A transaction output: whether output.script.isUnspendable() and the
serialization of bcoin.coin.fromTX(tx, j). -/
structure TxOut where
  unspendable : Bool
  raw : Nat
deriving DecidableEq

/-- A transaction of the block. -/
structure MTx where
  txid : Nat
  coinbase : Bool
  inputs : List TxIn
  outputs : List TxOut
deriving DecidableEq

/-- Key/value pairs the input loop of disconnectBlock puts back; the
input loop of connectBlock dels the same keys. The loop breaks on its
first iteration for a coinbase (if (tx.isCoinbase()) break), so a
coinbase contributes nothing. -/
def inPairs (tx : MTx) : List (Key × Val) :=
  if tx.coinbase then []
  else tx.inputs.map (fun i => (Key.coin i.prevout, Val.coin i.coin))

/-- The c/ keys of a transaction's inputs. -/
def inKeys (tx : MTx) : List Key :=
  (inPairs tx).map Prod.fst

/-- Key/value pairs the output loop of connectBlock puts: one per output
with unspendable outputs skipped (continue). -/
def outPairs (tx : MTx) : List (Key × Val) :=
  tx.outputs.enum.filterMap (fun p =>
    if p.2.unspendable then none
    else some (Key.coin ⟨tx.txid, p.1⟩, Val.coin p.2.raw))

/-- The c/ keys of a transaction's spendable outputs. -/
def outKeys (tx : MTx) : List Key :=
  (outPairs tx).map Prod.fst

/-- The batch operations connectBlock issues for one transaction: del
each input's coin, then put each spendable output's coin. -/
def txConnectOps (tx : MTx) : List Op :=
  (inKeys tx).map Op.del ++ (outPairs tx).map (fun p => Op.put p.1 p.2)

/-- The batch operations disconnectBlock issues for one transaction: put
each input's coin back, then del each spendable output's coin. -/
def txDisconnectOps (tx : MTx) : List Op :=
  (inPairs tx).map (fun p => Op.put p.1 p.2) ++ (outKeys tx).map Op.del

/-- The coins one transaction appends to the undo writer
(Framer.coin(input.coin, false, undo) per non-coinbase input, in input
order). -/
def txUndoCoins (tx : MTx) : List Nat :=
  if tx.coinbase then [] else tx.inputs.map (fun i => i.coin)

/-- The whole block's undo record content, in input-traversal order. -/
def blockUndo (txs : List MTx) : List Nat :=
  (txs.map txUndoCoins).flatten

/-- The coin operations of connectBlock over the block's transactions in
order. -/
def blockConnectOps (txs : List MTx) : List Op :=
  (txs.map txConnectOps).flatten

/-- The coin operations of disconnectBlock: transactions in reverse
order. -/
def blockDisconnectOps (txs : List MTx) : List Op :=
  (txs.reverse.map txDisconnectOps).flatten

/-- All batch operations of connectBlock on the c/ and u/ keyspaces: the
coin operations, then the undo record (only when the writer is nonempty:
if (undo.written > 0)). -/
def connectOps (blockHash : Nat) (txs : List MTx) : List Op :=
  blockConnectOps txs ++
    (if blockUndo txs = [] then [] else [Op.put (.undo blockHash) (.undo (blockUndo txs))])

/-- All batch operations of disconnectBlock: the reversed coin
operations, then batch.del of the undo record. -/
def disconnectOps (blockHash : Nat) (txs : List MTx) : List Op :=
  blockDisconnectOps txs ++ [Op.del (.undo blockHash)]

/-- A JS number that may be NaN: the numeric coercion of a Buffer object
is NaN. -/
def bufferAsNumber : Option Nat := none

/-- ToUint32 as writeUInt32LE applies it with noAssert: NaN becomes 0,
a number is truncated mod 2^32. -/
def toUint32 : Option Nat → Nat
  | none => 0
  | some n => n % 2 ^ 32

/-- The 4-byte record save puts under h/ + entry.hash, translated from
chaindb.js 459-461: height = new Buffer(4); height.writeUInt32LE(height,
0, true). The value written is the local height variable, which at that
point has just been rebound to the 4-byte buffer itself, so the bytes
stored are those of ToUint32(NaN) = 0, whatever entry.height is. -/
def saveHeightRecord (entryHeight : Nat) : List Nat :=
  Framer.u32le (toUint32 bufferAsNumber)

/-- readUInt32LE(0) as getHeight applies it to the stored h/ record. -/
def readUInt32LE (l : List Nat) : Nat :=
  l.getD 0 0 + 2 ^ 8 * l.getD 1 0 + 2 ^ 16 * l.getD 2 0 + 2 ^ 24 * l.getD 3 0

end ChainDB

/-! ### Pool: ban logic, inbound connection handling and verify-error
propagation (src/lib/bcoin/pool.js, src/lib/bcoin/errors.js).

Hosts are abstracted to naturals; the misbehaving map is an association
list host to utils.now() timestamp. constants.BAN_SCORE and
constants.BAN_TIME come from lib/bcoin/protocol/constants.js, which is
not among the repository's files, so both are taken as parameters. -/

namespace Pool

/-- The per-peer state the ban logic touches. -/
structure Peer where
  host : Nat
  banScore : Int
  connected : Bool
deriving DecidableEq

/-- Pool.prototype.setMisbehavior (pool.js 2031-2043): banScore += score;
at the BAN_SCORE threshold the host is recorded in the misbehaving map
with the current timestamp, the peer is destroyed and true is returned.
Returns (misbehaving map, peer, banned). -/
def setMisbehavior (banScoreLimit : Int) (mis : List (Nat × Nat)) (p : Peer)
    (score : Int) (now : Nat) : List (Nat × Nat) × Peer × Bool :=
  let p2 : Peer := { p with banScore := p.banScore + score }
  if banScoreLimit ≤ p2.banScore then
    ((p2.host, now) :: mis, { p2 with connected := false }, true)
  else
    (mis, p2, false)

/-- this.peers.misbehaving[host]: the first binding of the host. -/
def lookupMis (mis : List (Nat × Nat)) (host : Nat) : Option Nat :=
  (mis.find? (fun e => e.1 == host)).map (fun e => e.2)

/-- Pool.prototype.isMisbehaving (pool.js 2050-2070). The stored
timestamp passes a JS truthiness test (if (time)), so a 0 timestamp reads
as not misbehaving; an entry older than BAN_TIME is deleted (the peer
banScore reset of the registered peer is outside this model) and reads as
not misbehaving; otherwise the host is misbehaving. Returns the updated
map and the result. -/
def isMisbehaving (banTime : Nat) (mis : List (Nat × Nat)) (host : Nat)
    (now : Nat) : List (Nat × Nat) × Bool :=
  match lookupMis mis host with
  | none => (mis, false)
  | some time =>
    if time = 0 then (mis, false)
    else if time + banTime < now then
      (mis.filter (fun e => e.1 ≠ host), false)
    else (mis, true)

/-- The inbound connection handler (pool.js 430-456): a socket with no
remoteAddress is destroyed; with the leech table full it is destroyed;
with a misbehaving host it is destroyed; otherwise the leech is added.
Returns true when the connection is accepted. -/
def acceptConnection (banTime : Nat) (mis : List (Nat × Nat))
    (remoteAddress : Option Nat) (leeches maxLeeches : Nat) (now : Nat) : Bool :=
  match remoteAddress with
  | none => false
  | some host =>
    if maxLeeches ≤ leeches then false
    else if (isMisbehaving banTime mis host now).2 then false
    else true

/-- A VerifyError as errors.js 32-58 builds it: a null score becomes -1,
and the stored reason is nulled exactly when the score is -1. Reason
strings are abstracted to naturals. -/
structure VerifyError where
  code : Nat
  reason : Option Nat
  score : Int
deriving DecidableEq

/-- The VerifyError constructor. -/
def mkVerifyError (code reason : Nat) (score : Option Int) : VerifyError :=
  let s := score.getD (-1)
  { code := code, reason := if s = -1 then none else some reason, score := s }

/-- An observable action of the pool's error handling. -/
inductive Action where
  | rejectPacket (code : Nat) (reason : Option Nat)
  | misbehave (score : Int)
  | rejectsAdd (hash : Nat)
deriving DecidableEq

/-- Modelled from the spec: peer.sendReject lives in lib/bcoin/peer.js,
which is not among the repository's files. The spec's Propagation
sentence pairs the outgoing reject packet with a setMisbehavior(score)
call, so sendReject is modelled as both actions; the claim's fate does
not depend on this generosity, because the code guards the whole
sendReject call with score distinct from -1. -/
def sendReject (err : VerifyError) : List Action :=
  [.rejectPacket err.code err.reason, .misbehave err.score]

/-- The VerifyError path of Pool.prototype._handleTX (pool.js 1125-1139):
sendReject unless err.score is -1, then this.rejects.add(tx.hash()). -/
def handleTXError (txHash : Nat) (err : VerifyError) : List Action :=
  (if err.score = -1 then [] else sendReject err) ++ [.rejectsAdd txHash]

/-- The VerifyError path of Pool.prototype._handleBlock (pool.js
880-904): sendReject unless err.score is -1; then the bad-prevblk reason
either scores 10 in headers mode or resolves the orphan, and any other
reason adds the block hash to the reject filter. -/
def handleBlockError (blockHash : Nat) (headersMode : Bool)
    (badPrevblkReason : Nat) (err : VerifyError) : List Action :=
  (if err.score = -1 then [] else sendReject err) ++
    (if err.reason = some badPrevblkReason then
      (if headersMode then [.misbehave 10] else [])
    else [.rejectsAdd blockHash])

end Pool

/-! ### Mempool: block-disconnect reinsertion, eviction fee bump and the
rolling minimum fee rate (src/unnamed/part_002, the mempool module;
isFinal from src/lib/bcoin/tx.js). constants.locktimeThreshold and
constants.mempool.FEE_HALFLIFE live in protocol/constants.js, which is
not among the repository's files, so both are parameters. -/

namespace Mempool

/-- The transaction fields removeBlock and isFinal read. -/
structure MTX where
  txid : Nat
  coinbase : Bool
  lockTime : Nat
  sequences : List Nat
deriving DecidableEq

/-- Mempool.prototype.hasTX on a mempool abstracted to its set of txids. -/
def hasTX (pool : List Nat) (h : Nat) : Bool :=
  pool.contains h

/-- Mempool.prototype.removeBlock (part_002 273-306): for each block
transaction in order, a coinbase is skipped, a transaction the mempool
already has is skipped, and every other transaction is handed to
addUnchecked, which inserts it without any validation. -/
def removeBlock (pool : List Nat) (txs : List MTX) : List Nat :=
  txs.foldl (fun p tx =>
    if tx.coinbase then p
    else if hasTX p tx.txid then p
    else p ++ [tx.txid]) pool

/-- TX.prototype.isFinal (tx.js 1201-1220) for a chain-attached
transaction: lock 0 is final; a lock below the height (below the
threshold) or the timestamp (at or above it) is final; otherwise every
input sequence must be 0xffffffff. -/
def isFinal (threshold : Nat) (tx : MTX) (height ts : Nat) : Bool :=
  if tx.lockTime = 0 then true
  else if tx.lockTime < (if tx.lockTime < threshold then height else ts) then true
  else tx.sequences.all (fun s => s == 0xffffffff)

/-- The mempool state the fee-rate logic touches. -/
structure FeeState where
  minFeeRate : Nat
  lastFeeUpdate : Nat
  blockSinceBump : Bool
  minReasonableFee : Nat
  maxSize : Nat
deriving DecidableEq

/-- The fee-rate update of Mempool.prototype.removeUnchecked (part_002,
limit branch): rate = fees * 1000 / size + minReasonableFee, and a rate
above the current minFeeRate replaces it and clears blockSinceBump. -/
def removeUncheckedFeeUpdate (st : FeeState) (limit : Bool) (fees size : Nat) :
    FeeState :=
  if limit then
    let rate := fees * 1000 / size + st.minReasonableFee
    if st.minFeeRate < rate then
      { st with minFeeRate := rate, blockSinceBump := false }
    else st
  else st

/-- The half-life getMinRate decays with: FEE_HALFLIFE, shifted right by
2 below a quarter of maxSize and by 1 below half of it. -/
def decayHalflife (feeHalflife size maxSize : Nat) : Nat :=
  if 4 * size < maxSize then feeHalflife >>> 2
  else if 2 * size < maxSize then feeHalflife >>> 1
  else feeHalflife

/-- Mempool.prototype.getMinRate (part_002 867-898). Without a block
since the last bump, or at rate 0, the rate is returned unchanged. More
than 10 seconds after the last update the rate is divided by 2 to the
integer part of elapsed/halflife and floored (the |= 0), zero-clamped
below half of minReasonableFee; the returned rate is floored at
minReasonableFee except on the two early returns. Returns the updated
state and the returned rate. -/
def getMinRate (feeHalflife : Nat) (st : FeeState) (now size : Nat) :
    FeeState × Nat :=
  if st.blockSinceBump = false ∨ st.minFeeRate = 0 then (st, st.minFeeRate)
  else if st.lastFeeUpdate + 10 < now then
    let hl := decayHalflife feeHalflife size st.maxSize
    let r := st.minFeeRate / 2 ^ ((now - st.lastFeeUpdate) / hl)
    if 2 * r < st.minReasonableFee then
      ({ st with minFeeRate := 0, lastFeeUpdate := now }, 0)
    else
      ({ st with minFeeRate := r, lastFeeUpdate := now },
        if st.minReasonableFee < r then r else st.minReasonableFee)
  else
    (st, if st.minReasonableFee < st.minFeeRate then st.minFeeRate
      else st.minReasonableFee)

end Mempool

/-! ### Pointwise lemmas about batch application, used for the connect/disconnect round trip -/

namespace ChainDB

theorem applyOps_append (m : Key → Option Val) (a b : List Op) :
    applyOps m (a ++ b) = applyOps (applyOps m a) b := by
  simp [applyOps, List.foldl_append]

theorem applyOps_singleton (m : Key → Option Val) (op : Op) :
    applyOps m [op] = applyOp m op := rfl

theorem applyOp_congr_at (m1 m2 : Key → Option Val) (op : Op) (k : Key)
    (h : m1 k = m2 k) : applyOp m1 op k = applyOp m2 op k := by
  cases op <;> simp only [applyOp] <;> split_ifs <;> simp [h]

theorem applyOps_congr_at (ops : List Op) : ∀ (m1 m2 : Key → Option Val) (k : Key),
    m1 k = m2 k → applyOps m1 ops k = applyOps m2 ops k := by
  induction ops with
  | nil => intro m1 m2 k h; exact h
  | cons op ops ih =>
    intro m1 m2 k h
    exact ih (applyOp m1 op) (applyOp m2 op) k (applyOp_congr_at m1 m2 op k h)

theorem applyOps_untouched (ops : List Op) : ∀ (m : Key → Option Val) (k : Key),
    (∀ op ∈ ops, op.key ≠ k) → applyOps m ops k = m k := by
  induction ops with
  | nil => intro m k _; rfl
  | cons op ops ih =>
    intro m k h
    have h1 : applyOp m op k = m k := by
      cases op with
      | put k0 v =>
        have := h _ (List.mem_cons_self _ _)
        simp only [Op.key] at this
        simp [applyOp, Ne.symm this]
      | del k0 =>
        have := h _ (List.mem_cons_self _ _)
        simp only [Op.key] at this
        simp [applyOp, Ne.symm this]
    calc applyOps m (op :: ops) k
        = applyOps (applyOp m op) ops k := rfl
      _ = m k := by
          rw [ih (applyOp m op) k (fun o ho => h o (List.mem_cons_of_mem _ ho))] at *
          exact h1

theorem applyOps_delList (keys : List Key) : ∀ (m : Key → Option Val) (k : Key),
    applyOps m (keys.map Op.del) k = if k ∈ keys then none else m k := by
  induction keys with
  | nil => intro m k; simp [applyOps]
  | cons k0 keys ih =>
    intro m k
    have hstep : applyOps m ((k0 :: keys).map Op.del) k
        = applyOps (applyOp m (.del k0)) (keys.map Op.del) k := rfl
    rw [hstep, ih]
    by_cases hk : k ∈ keys
    · simp [hk]
    · by_cases he : k = k0 <;> simp [hk, he, applyOp]

theorem applyOps_putList (pairs : List (Key × Val)) : ∀ (m : Key → Option Val) (k : Key),
    applyOps m (pairs.map (fun p => Op.put p.1 p.2)) k
      = (match pairs.reverse.find? (fun p => decide (p.1 = k)) with
         | some p => some p.2
         | none => m k) := by
  induction pairs with
  | nil => intro m k; rfl
  | cons p0 pairs ih =>
    intro m k
    have hstep : applyOps m ((p0 :: pairs).map (fun p => Op.put p.1 p.2)) k
        = applyOps (applyOp m (.put p0.1 p0.2)) (pairs.map (fun p => Op.put p.1 p.2)) k := rfl
    rw [hstep, ih, List.reverse_cons, List.find?_append]
    cases hf : pairs.reverse.find? (fun p => decide (p.1 = k)) with
    | some q => simp [Option.orElse]
    | none =>
      by_cases he : p0.1 = k
      · simp [Option.orElse, he, applyOp]
      · have he2 : ¬ k = p0.1 := fun hh => he hh.symm
        simp [Option.orElse, he, he2, applyOp]

theorem inKeys_shape (tx : MTx) : ∀ k ∈ inKeys tx, ∃ o, k = Key.coin o := by
  intro k hk
  rcases List.mem_map.1 hk with ⟨p, hp, rfl⟩
  rw [inPairs] at hp
  by_cases hc : tx.coinbase
  · simp [hc] at hp
  · simp only [hc, if_false, Bool.false_eq_true] at hp
    rcases List.mem_map.1 hp with ⟨i, _, rfl⟩
    exact ⟨i.prevout, rfl⟩

theorem outKeys_shape (tx : MTx) : ∀ k ∈ outKeys tx, ∃ o, k = Key.coin o := by
  intro k hk
  rcases List.mem_map.1 hk with ⟨p, hp, rfl⟩
  rcases List.mem_filterMap.1 hp with ⟨q, _, hq⟩
  by_cases hu : q.2.unspendable
  · simp [hu] at hq
  · simp only [hu, if_false, Bool.false_eq_true, Option.some.injEq] at hq
    exact ⟨⟨tx.txid, q.1⟩, by rw [← hq]⟩

theorem txConnectOps_key (tx : MTx) : ∀ op ∈ txConnectOps tx,
    op.key ∈ inKeys tx ∨ op.key ∈ outKeys tx := by
  intro op hop
  rcases List.mem_append.1 hop with h | h
  · rcases List.mem_map.1 h with ⟨k, hk, rfl⟩
    exact Or.inl hk
  · rcases List.mem_map.1 h with ⟨p, hp, rfl⟩
    exact Or.inr (List.mem_map.2 ⟨p, hp, rfl⟩)

theorem txDisconnectOps_key (tx : MTx) : ∀ op ∈ txDisconnectOps tx,
    op.key ∈ inKeys tx ∨ op.key ∈ outKeys tx := by
  intro op hop
  rcases List.mem_append.1 hop with h | h
  · rcases List.mem_map.1 h with ⟨p, hp, rfl⟩
    exact Or.inl (List.mem_map.2 ⟨p, hp, rfl⟩)
  · rcases List.mem_map.1 h with ⟨k, hk, rfl⟩
    exact Or.inr hk

theorem tx_roundtrip (tx : MTx) (m : Key → Option Val)
    (hfill : ∀ p ∈ inPairs tx, m p.1 = some p.2)
    (hfresh : ∀ k ∈ outKeys tx, m k = none)
    (hdisj : ∀ k ∈ inKeys tx, k ∉ outKeys tx) (k : Key) :
    applyOps (applyOps m (txConnectOps tx)) (txDisconnectOps tx) k = m k := by
  rw [txConnectOps, txDisconnectOps, applyOps_append, applyOps_append,
    applyOps_delList, applyOps_putList]
  by_cases hko : k ∈ outKeys tx
  · rw [if_pos hko, hfresh k hko]
  · rw [if_neg hko]
    by_cases hki : k ∈ inKeys tx
    · cases hfind : (inPairs tx).reverse.find? (fun p => decide (p.1 = k)) with
      | none =>
        exfalso
        rw [List.find?_eq_none] at hfind
        rcases List.mem_map.1 hki with ⟨p, hp, hfst⟩
        exact absurd (by simp [hfst]) (hfind p (List.mem_reverse.2 hp))
      | some p =>
        have hmem : p ∈ inPairs tx := List.mem_reverse.1 (List.mem_of_find?_eq_some hfind)
        have hpk : p.1 = k := by simpa using List.find?_some hfind
        show some p.2 = m k
        rw [← hpk, hfill p hmem]
    · have hfind : (inPairs tx).reverse.find? (fun p => decide (p.1 = k)) = none := by
        rw [List.find?_eq_none]
        intro p hp hpk
        exact hki (List.mem_map.2 ⟨p, List.mem_reverse.1 hp, by simpa using hpk⟩)
      rw [hfind]
      show applyOps (applyOps m ((inKeys tx).map Op.del)) ((outPairs tx).map (fun p => Op.put p.1 p.2)) k = m k
      rw [applyOps_putList]
      have hfind2 : (outPairs tx).reverse.find? (fun p => decide (p.1 = k)) = none := by
        rw [List.find?_eq_none]
        intro p hp hpk
        exact hko (List.mem_map.2 ⟨p, List.mem_reverse.1 hp, by simpa using hpk⟩)
      rw [hfind2]
      show applyOps m ((inKeys tx).map Op.del) k = m k
      rw [applyOps_delList, if_neg hki]

theorem block_roundtrip (txs : List MTx) : ∀ (m : Key → Option Val),
    (∀ tx ∈ txs, ∀ p ∈ inPairs tx, m p.1 = some p.2) →
    (∀ tx ∈ txs, ∀ k ∈ outKeys tx, m k = none) →
    (∀ t1 ∈ txs, ∀ t2 ∈ txs, ∀ k ∈ inKeys t1, k ∉ outKeys t2) →
    txs.Pairwise (fun t1 t2 => ∀ k ∈ inKeys t1, k ∉ inKeys t2) →
    txs.Pairwise (fun t1 t2 => ∀ k ∈ outKeys t1, k ∉ outKeys t2) →
    ∀ k, applyOps (applyOps m (blockConnectOps txs)) (blockDisconnectOps txs) k = m k := by
  induction txs with
  | nil => intro m _ _ _ _ _ k; rfl
  | cons tx txs ih =>
    intro m hfill hfresh hdisj hins houts k
    rw [List.pairwise_cons] at hins houts
    have hCexp : blockConnectOps (tx :: txs) = txConnectOps tx ++ blockConnectOps txs := by
      simp [blockConnectOps]
    have hDexp : blockDisconnectOps (tx :: txs)
        = blockDisconnectOps txs ++ txDisconnectOps tx := by
      simp [blockDisconnectOps, List.reverse_cons]
    rw [hCexp, hDexp, applyOps_append, applyOps_append]
    have hkeyCtx : ∀ op ∈ txConnectOps tx, op.key ∈ inKeys tx ∨ op.key ∈ outKeys tx :=
      txConnectOps_key tx
    have huntouched : ∀ k2, (∀ op ∈ txConnectOps tx, op.key ≠ k2) →
        applyOps m (txConnectOps tx) k2 = m k2 :=
      fun k2 h => applyOps_untouched _ m k2 h
    have hih : ∀ k2, applyOps (applyOps (applyOps m (txConnectOps tx)) (blockConnectOps txs))
        (blockDisconnectOps txs) k2 = applyOps m (txConnectOps tx) k2 := by
      refine ih (applyOps m (txConnectOps tx)) ?_ ?_ ?_ hins.2 houts.2
      · intro tx2 htx2 p hp
        rw [huntouched p.1 ?_, hfill tx2 (List.mem_cons_of_mem _ htx2) p hp]
        intro op hop hkey
        have hpin : p.1 ∈ inKeys tx2 := List.mem_map.2 ⟨p, hp, rfl⟩
        rcases hkeyCtx op hop with h | h
        · exact hins.1 tx2 htx2 op.key h (hkey ▸ hpin)
        · exact hdisj tx2 (List.mem_cons_of_mem _ htx2) tx (List.mem_cons_self _ _)
            p.1 hpin (hkey ▸ h)
      · intro tx2 htx2 k2 hk2
        rw [huntouched k2 ?_, hfresh tx2 (List.mem_cons_of_mem _ htx2) k2 hk2]
        intro op hop hkey
        rcases hkeyCtx op hop with h | h
        · exact hdisj tx (List.mem_cons_self _ _) tx2 (List.mem_cons_of_mem _ htx2)
            op.key h (hkey ▸ hk2)
        · exact houts.1 tx2 htx2 op.key h (hkey ▸ hk2)
      · intro t1 ht1 t2 ht2 k2 hk2
        exact hdisj t1 (List.mem_cons_of_mem _ ht1) t2 (List.mem_cons_of_mem _ ht2) k2 hk2
    rw [applyOps_congr_at (txDisconnectOps tx) _ _ k (hih k)]
    exact tx_roundtrip tx m
      (hfill tx (List.mem_cons_self _ _))
      (hfresh tx (List.mem_cons_self _ _))
      (fun k2 hk2 => hdisj tx (List.mem_cons_self _ _) tx (List.mem_cons_self _ _) k2 hk2)
      k

theorem blockConnectOps_key_coin (txs : List MTx) : ∀ op ∈ blockConnectOps txs,
    ∃ o, op.key = Key.coin o := by
  intro op hop
  rw [blockConnectOps] at hop
  rcases List.mem_flatten.1 hop with ⟨l, hl, hop2⟩
  rcases List.mem_map.1 hl with ⟨tx, _, rfl⟩
  rcases txConnectOps_key tx op hop2 with h | h
  · exact inKeys_shape tx _ h
  · exact outKeys_shape tx _ h

theorem blockDisconnectOps_key_coin (txs : List MTx) : ∀ op ∈ blockDisconnectOps txs,
    ∃ o, op.key = Key.coin o := by
  intro op hop
  rw [blockDisconnectOps] at hop
  rcases List.mem_flatten.1 hop with ⟨l, hl, hop2⟩
  rcases List.mem_map.1 hl with ⟨tx, _, rfl⟩
  rcases txDisconnectOps_key tx op hop2 with h | h
  · exact inKeys_shape tx _ h
  · exact outKeys_shape tx _ h

theorem blockUndo_eq (txs : List MTx) :
    blockUndo txs = (txs.filter (fun tx => !tx.coinbase)).flatMap
      (fun tx => tx.inputs.map (fun i => i.coin)) := by
  induction txs with
  | nil => rfl
  | cons tx txs ih =>
    have hstep : blockUndo (tx :: txs) = txUndoCoins tx ++ blockUndo txs := by
      simp [blockUndo]
    rw [hstep, ih]
    by_cases hc : tx.coinbase <;> simp [txUndoCoins, hc, List.filter_cons]

end ChainDB

/-! ## Claim theorems -/

/-- C9: executing the script `OP_2 OP_EQUAL OP_IF OP_3 OP_ELSE OP_4 OP_ENDIF
OP_5` (bytes 52 87 63 53 67 54 68 55) with initial main stack `[1, 2]`
succeeds, the final stack is `[1, 3, 5]`, and the top element `[5]` is
truthy. The result holds for every hash primitive. -/
theorem c9_if_else_script_execution (ripesha : Script.Item → Script.Item) :
    Script.execute ripesha (Script.decode [0x52, 0x87, 0x63, 0x53, 0x67, 0x54, 0x68, 0x55])
        [[1], [2]] [] none = (true, [[1], [3], [5]], [])
      ∧ Script.bool [5] = true := by
  refine ⟨?_, by simp [Script.bool]⟩
  rw [Script.execute]
  simp only [Option.getD]
  have hd : Script.decode [0x52, 0x87, 0x63, 0x53, 0x67, 0x54, 0x68, 0x55] =
      [.num 2, .op .equal, .op .ifOp, .num 3, .op .elseOp, .num 4, .op .endifOp, .num 5] := by
    simp [Script.decode, Script.opcodesByVal, Script.instrOfOpcode]
  rw [hd]
  rw [if_neg (by simp [Script.maxOps])]
  repeat
    rw [Script.execLoop]
    simp [List.getD, Script.nextOp, Script.spliceIf, Script.splice, Script.checkPush,
      Script.bool, Script.isEqual, Script.maxPush, Script.maxStack, Script.bumpDepth,
      Script.bumpElse]

/-- C2: evaluation of the code at the failing input for the MINIMALDATA
claim. The script is the wire bytes `4c 01 05` (a PUSHDATA1 carrying a
single byte, which is not the shortest encoding), executed with the
`minimaldata` flag enabled; `script.execute` nevertheless succeeds, because
its call `script.checkPush(o, flags)` passes the flags object in the
`value` parameter of `checkPush(op, value, flags)`, so every length test in
`checkPush` compares against `undefined` and the function falls through to
`return true`. The second conjunct shows that `checkPush` applied to the
actual push data (as its signature intends) rejects the push. -/
theorem c2_nonminimal_push_accepted (ripesha : Script.Item → Script.Item) :
    Script.execute ripesha (Script.decode [0x4c, 0x01, 0x05]) [] []
        (some { minimaldata := some true }) = (true, [[5]], [])
      ∧ Script.checkPush (some ⟨some .pushdata1, 1⟩) (.arr [5])
          (some { minimaldata := some true }) = false := by
  constructor
  · rw [Script.execute]
    simp only [Option.getD]
    have hd : Script.decode [0x4c, 0x01, 0x05] = [.push [5] (some ⟨some .pushdata1, 1⟩)] := by
      simp [Script.decode, Script.opcodesByVal, Script.instrOfOpcode]
    rw [hd]
    rw [if_neg (by simp [Script.maxOps])]
    repeat
      rw [Script.execLoop]
      simp [List.getD, Script.checkPush, Script.cpLen, Script.cpAt0, Script.pdToNum,
        Script.maxPush, Script.maxStack]
  · simp [Script.checkPush, Script.cpLen, Script.cpAt0, Script.pdToNum]

set_option maxRecDepth 4096 in
/-- C10: `script.verify` discards the result of executing the scriptSig.
The scriptSig consisting of a single 521-byte push is push-only but fails
`script.execute` (it exceeds the 520-byte push limit), yet `verify` against
the scriptPubKey `OP_1` returns true, because only the output script's
execution result, the final stack top, the optional P2SH redeem execution
and the cleanstack condition are checked. -/
theorem c10_verify_ignores_input_script_failure (ripesha : Script.Item → Script.Item) :
    (Script.execute ripesha [.push (List.replicate 521 0) none] [] [] none).1 = false
      ∧ Script.verify ripesha [.push (List.replicate 521 0) none] [.num 1] none = true := by
  have h1 : Script.execute ripesha [.push (List.replicate 521 0) none] [] [] (some {})
      = (false, [], []) := by
    rw [Script.execute, Script.execLoop]; rfl
  have h1n : Script.execute ripesha [.push (List.replicate 521 0) none] [] [] none
      = (false, [], []) := by
    rw [Script.execute, Script.execLoop]; rfl
  have h2 : Script.execute ripesha [.num 1] [] [] (some {}) = (true, [[1]], []) := by
    simp [Script.execute, Script.execLoop, List.getD, Script.maxOps, Script.maxStack]
  have hpo : Script.isPushOnly [.push (List.replicate 521 0) none] = true := by
    simp [Script.isPushOnly]
  refine ⟨by rw [h1n], ?_⟩
  rw [Script.verify]
  simp only [Option.getD, hpo, h1, h2]
  simp [Script.isScripthash, Script.bool]

set_option maxHeartbeats 1000000 in
/-- C8: the framed packet for a command of fewer than 12 bytes is laid out
as the 4 little-endian magic bytes, the command bytes (each truncated to a
byte) zero-padded to 12 bytes, the 4 little-endian payload-length bytes,
the first 4 bytes of the double-SHA256 checksum of the payload, and the
payload itself, for any hash primitive producing 32-byte digests. -/
theorem c8_framer_packet_wire_layout (sha256 : List Nat → List Nat)
    (h32 : ∀ x, (sha256 x).length = 32) (magic : Nat) (cmd payload : List Nat)
    (hcmd : cmd.length < 12) (hlen : payload.length ≤ 0xffffffff) :
    Framer.packet sha256 magic cmd payload =
      Framer.u32le magic ++ (cmd.map (· % 256) ++ List.replicate (12 - cmd.length) 0)
        ++ Framer.u32le payload.length ++ (Framer.dsha256 sha256 payload).take 4 ++ payload := by
  have h4 := h32 (sha256 payload)
  obtain ⟨a, b, c, d, t, hcs⟩ : ∃ a b c d t, sha256 (sha256 payload) = a :: b :: c :: d :: t := by
    rcases e : sha256 (sha256 payload) with _ | ⟨a, _ | ⟨b, _ | ⟨c, _ | ⟨d, t⟩⟩⟩⟩ <;>
      first
        | exact ⟨_, _, _, _, _, rfl⟩
        | (rw [e] at h4; simp at h4)
  have hchk : Framer.checksum sha256 payload = [a, b, c, d] := by
    rw [Framer.checksum, Framer.dsha256, hcs]; rfl
  have htake : (Framer.dsha256 sha256 payload).take 4 = [a, b, c, d] := by
    rw [Framer.dsha256, hcs]; rfl
  simp only [Framer.packet, Framer.header, hchk, htake, Framer.copy,
    Framer.length_writeU32, Framer.length_padZeros, Framer.length_writeAscii,
    List.length_replicate, List.length_cons, List.length_nil]
  norm_num
  apply List.ext_getElem?
  intro n
  simp only [List.getElem?_append, Framer.length_copyLoop, Framer.length_writeU32,
    Framer.length_padZeros, Framer.length_writeAscii, List.length_replicate,
    List.length_append, List.length_map, List.length_cons, List.length_nil]
  rw [Framer.getElem?_copyLoop _ _ _ _ n
    (by simp only [Framer.length_writeU32, Framer.length_padZeros, Framer.length_writeAscii,
      List.length_replicate]; omega)]
  rw [Framer.getElem?_writeU32 _ _ _ _
    (by simp only [Framer.length_padZeros, Framer.length_writeAscii, Framer.length_writeU32,
      List.length_replicate]; omega)]
  rw [Framer.getElem?_padZeros _ _ _ _
    (by simp only [Framer.length_writeAscii, Framer.length_writeU32, Framer.length_padZeros,
      List.length_replicate]; omega)]
  rw [Framer.getElem?_writeAscii _ _ _ _
    (by simp only [Framer.length_writeU32, Framer.length_padZeros, Framer.length_writeAscii,
      List.length_replicate]; omega)]
  rw [Framer.getElem?_writeU32 _ _ _ _ (by simp only [List.length_replicate]; omega)]
  simp only [List.getElem?_replicate, List.getElem?_map, Framer.length_u32le]
  simp only [List.getElem?_cons]
  simp only [Framer.getElem?_u32le]
  rcases (by omega :
      n = 0 ∨ n = 1 ∨ n = 2 ∨ n = 3 ∨ (4 ≤ n ∧ n < 4 + cmd.length)
        ∨ (4 + cmd.length ≤ n ∧ n < 16) ∨ n = 16 ∨ n = 17 ∨ n = 18 ∨ n = 19
        ∨ n = 20 ∨ n = 21 ∨ n = 22 ∨ n = 23 ∨ 24 ≤ n) with
    h | h | h | h | h | h | h | h | h | h | h | h | h | h | h
  · subst h
    rw [if_pos (by omega), if_neg (by omega), if_neg (by omega)]
    rw [if_neg (by omega), if_neg (by omega), if_neg (by omega)]
    rw [if_neg (by omega), if_neg (by omega), if_pos (by omega)]
    rw [if_pos (by omega), if_pos (by omega)]
  · subst h
    rw [if_pos (by omega), if_neg (by omega), if_neg (by omega)]
    rw [if_neg (by omega), if_neg (by omega), if_neg (by omega)]
    rw [if_neg (by omega), if_neg (by omega), if_neg (by omega)]
    rw [if_pos (by omega), if_pos (by omega), if_neg (by omega)]
    rw [if_pos (by omega)]
  · subst h
    rw [if_pos (by omega), if_neg (by omega), if_neg (by omega)]
    rw [if_neg (by omega), if_neg (by omega), if_neg (by omega)]
    rw [if_neg (by omega), if_neg (by omega), if_neg (by omega)]
    rw [if_neg (by omega), if_pos (by omega), if_pos (by omega)]
    rw [if_neg (by omega), if_neg (by omega), if_pos (by omega)]
  · subst h
    rw [if_pos (by omega), if_neg (by omega), if_neg (by omega)]
    rw [if_neg (by omega), if_neg (by omega), if_neg (by omega)]
    rw [if_neg (by omega), if_neg (by omega), if_neg (by omega)]
    rw [if_neg (by omega), if_neg (by omega), if_pos (by omega)]
    rw [if_pos (by omega), if_neg (by omega), if_neg (by omega)]
    rw [if_neg (by omega), if_pos (by omega)]
  · skip
    rw [if_pos (by omega), if_neg (by omega), if_neg (by omega)]
    rw [if_neg (by omega), if_neg (by omega), if_neg (by omega)]
    rw [if_neg (by omega), if_pos (by omega), if_neg (by omega)]
    rw [if_pos (by omega)]
  · skip
    rw [if_pos (by omega), if_neg (by omega), if_neg (by omega)]
    rw [if_neg (by omega), if_neg (by omega), if_neg (by omega)]
    rw [if_pos (by omega), if_neg (by omega), if_neg (by omega)]
    rw [if_pos (by omega), if_pos (by omega)]
  · subst h
    rw [if_pos (by omega), if_neg (by omega), if_pos (by omega)]
    rw [if_neg (by omega), if_neg (by omega), if_neg (by omega)]
    rw [if_pos (by omega), if_pos (by omega)]
  · subst h
    rw [if_pos (by omega), if_neg (by omega), if_neg (by omega)]
    rw [if_pos (by omega), if_neg (by omega), if_neg (by omega)]
    rw [if_neg (by omega), if_pos (by omega), if_neg (by omega)]
    rw [if_pos (by omega)]
  · subst h
    rw [if_pos (by omega), if_neg (by omega), if_neg (by omega)]
    rw [if_neg (by omega), if_pos (by omega), if_neg (by omega)]
    rw [if_neg (by omega), if_neg (by omega), if_pos (by omega)]
    rw [if_neg (by omega), if_neg (by omega), if_pos (by omega)]
  · subst h
    rw [if_pos (by omega), if_neg (by omega), if_neg (by omega)]
    rw [if_neg (by omega), if_neg (by omega), if_pos (by omega)]
    rw [if_neg (by omega), if_neg (by omega), if_neg (by omega)]
    rw [if_pos (by omega), if_neg (by omega), if_neg (by omega)]
    rw [if_neg (by omega), if_pos (by omega)]
  · subst h
    rw [if_pos (by omega), if_pos (by omega), if_neg (by omega)]
    rw [if_neg (by omega), if_neg (by omega), if_neg (by omega)]
    rw [if_pos (by omega)]
    rfl
  · subst h
    rw [if_pos (by omega), if_pos (by omega), if_neg (by omega)]
    rw [if_neg (by omega), if_neg (by omega), if_neg (by omega)]
    rw [if_neg (by omega), if_pos (by omega)]
    rfl
  · subst h
    rw [if_pos (by omega), if_pos (by omega), if_neg (by omega)]
    rw [if_neg (by omega), if_neg (by omega), if_neg (by omega)]
    rw [if_neg (by omega), if_neg (by omega), if_pos (by omega)]
    rfl
  · subst h
    rw [if_pos (by omega), if_pos (by omega), if_neg (by omega)]
    rw [if_neg (by omega), if_neg (by omega), if_neg (by omega)]
    rw [if_neg (by omega), if_neg (by omega), if_neg (by omega)]
    rw [if_pos (by omega)]
    rfl
  · rw [if_neg (by omega), if_neg (by omega), if_neg (by omega)]
    rw [if_neg (by omega), if_neg (by omega), if_neg (by omega)]
    rw [if_neg (by omega), if_neg (by omega), if_neg (by omega)]
    congr 1
    omega

/-- Witness for C8: the layout theorem instantiated at a concrete hash
primitive, magic `0xd9b4bef9`, the command bytes of the string verack and
an empty payload. -/
theorem c8_framer_packet_wire_layout_witness :
    Framer.packet (fun _ => List.replicate 32 0) 0xd9b4bef9 [118, 101, 114, 97, 99, 107] [] =
      Framer.u32le 0xd9b4bef9
        ++ ([118, 101, 114, 97, 99, 107].map (· % 256) ++ List.replicate (12 - 6) 0)
        ++ Framer.u32le (List.length ([] : List Nat)) ++ (Framer.dsha256 (fun _ => List.replicate 32 0) []).take 4
        ++ [] :=
  c8_framer_packet_wire_layout (fun _ => List.replicate 32 0) (fun _ => by simp)
    0xd9b4bef9 [118, 101, 114, 97, 99, 107] [] (by simp) (by simp)

/-- C3: the h/ record ChainDB.save writes is not the little-endian encoding
of entry.height: writeUInt32LE is called with the 4-byte buffer itself as the
value (the local variable height was just rebound to it), which coerces to
NaN and stores 0, so for entry.height = 1 the record is [0,0,0,0], getHeight
reads it back as 0, and it differs from the spec's u32 LE encoding of 1. -/
theorem c3_save_height_record_is_zero :
    ChainDB.saveHeightRecord 1 = [0, 0, 0, 0]
      ∧ ChainDB.readUInt32LE (ChainDB.saveHeightRecord 1) = 0
      ∧ ChainDB.saveHeightRecord 1 ≠ Framer.u32le 1 := by
  refine ⟨rfl, rfl, by decide⟩

/-- C5 (amended): Mempool.removeBlock reinserts exactly the block's
non-coinbase transactions, keeping everything already present: a txid is in
the resulting mempool iff it was there before or belongs to a non-coinbase
transaction of the block. No finality or standardness check takes part:
addUnchecked inserts without validation, as the counterexample shows on a
non-final transaction. -/
theorem c5_removeblock_reinserts_membership (pool : List Nat)
    (txs : List Mempool.MTX) (h : Nat) :
    h ∈ Mempool.removeBlock pool txs ↔
      h ∈ pool ∨ ∃ tx ∈ txs, tx.coinbase = false ∧ tx.txid = h := by
  induction txs generalizing pool with
  | nil => simp [Mempool.removeBlock]
  | cons tx txs ih =>
    have hstep : Mempool.removeBlock pool (tx :: txs)
        = Mempool.removeBlock
            (if tx.coinbase then pool
             else if Mempool.hasTX pool tx.txid then pool
             else pool ++ [tx.txid]) txs := rfl
    rw [hstep, ih]
    by_cases hc : tx.coinbase <;>
      by_cases hm : tx.txid ∈ pool <;>
        simp [hc, hm, Mempool.hasTX, List.contains, List.elem_eq_mem] <;> aesop

/-- C5 (counterexample to the original claim): a block transaction with
locktime 100 and a non-final input sequence is not final at height 50, yet
removeBlock inserts it into the (empty) mempool: no locktime-finality or
standardness check is applied to reinserted transactions. -/
theorem c5_nonfinal_tx_reinserted :
    Mempool.isFinal 500000000 ⟨1, false, 100, [0]⟩ 50 0 = false
      ∧ Mempool.removeBlock [] [⟨1, false, 100, [0]⟩] = [1] := by
  refine ⟨by decide, rfl⟩

/-- C6: evicting for size (removeUnchecked with the limit flag) sets the
dynamic minimum fee rate to the maximum of its old value and the evicted
entry's fee rate fees * 1000 / size plus minReasonableFee, so afterwards it
is at least that sum; and getMinRate decays the rate geometrically, dividing
by 2 to the whole number of elapsed half-lives, the half-life being quartered
below a quarter of the size cap and halved below half of it. -/
theorem c6_eviction_fee_bump_and_decay (st st2 : Mempool.FeeState)
    (fees size feeHalflife now gsize : Nat)
    (hbump : st2.blockSinceBump = true) (hnz : st2.minFeeRate ≠ 0)
    (hnow : st2.lastFeeUpdate + 10 < now) :
    (Mempool.removeUncheckedFeeUpdate st true fees size).minFeeRate
        = max st.minFeeRate (fees * 1000 / size + st.minReasonableFee)
      ∧ fees * 1000 / size + st.minReasonableFee
          ≤ (Mempool.removeUncheckedFeeUpdate st true fees size).minFeeRate
      ∧ (Mempool.getMinRate feeHalflife st2 now gsize).1.minFeeRate
          = (if 2 * (st2.minFeeRate /
                2 ^ ((now - st2.lastFeeUpdate) /
                  Mempool.decayHalflife feeHalflife gsize st2.maxSize))
                < st2.minReasonableFee
             then 0
             else st2.minFeeRate /
               2 ^ ((now - st2.lastFeeUpdate) /
                 Mempool.decayHalflife feeHalflife gsize st2.maxSize))
      ∧ Mempool.decayHalflife feeHalflife gsize st2.maxSize
          = (if 4 * gsize < st2.maxSize then feeHalflife / 4
             else if 2 * gsize < st2.maxSize then feeHalflife / 2
             else feeHalflife) := by
  refine ⟨?_, ?_, ?_, ?_⟩
  · simp only [Mempool.removeUncheckedFeeUpdate, if_true]
    generalize fees * 1000 / size = q
    by_cases h1 : st.minFeeRate < q + st.minReasonableFee
    · simp [h1]; omega
    · simp [h1]; omega
  · simp only [Mempool.removeUncheckedFeeUpdate, if_true]
    generalize fees * 1000 / size = q
    by_cases h1 : st.minFeeRate < q + st.minReasonableFee
    · simp [h1]
    · simp [h1]; omega
  · rw [Mempool.getMinRate]
    rw [if_neg (by simp [hbump, hnz]), if_pos hnow]
    by_cases h2 : 2 * (st2.minFeeRate /
        2 ^ ((now - st2.lastFeeUpdate) /
          Mempool.decayHalflife feeHalflife gsize st2.maxSize))
        < st2.minReasonableFee
    · rw [if_pos h2]; simp [h2]
    · rw [if_neg h2]; simp [h2]
  · simp only [Mempool.decayHalflife, Nat.shiftRight_eq_div_pow]

/-- Witness for C6 at a concrete state: an eviction of a 10-byte entry with
fee 5 against a reasonable-fee floor of 100, and a decay of a rate of 2000
over 20 seconds with half-life 8 at usage 600 of cap 1000. -/
theorem c6_eviction_fee_bump_and_decay_witness :
    (Mempool.removeUncheckedFeeUpdate ⟨0, 0, true, 100, 1000⟩ true 5 10).minFeeRate
        = max 0 (5 * 1000 / 10 + 100)
      ∧ 5 * 1000 / 10 + 100
          ≤ (Mempool.removeUncheckedFeeUpdate ⟨0, 0, true, 100, 1000⟩ true 5 10).minFeeRate
      ∧ (Mempool.getMinRate 8 ⟨2000, 0, true, 100, 1000⟩ 20 600).1.minFeeRate
          = (if 2 * (2000 / 2 ^ ((20 - 0) / Mempool.decayHalflife 8 600 1000)) < 100
             then 0 else 2000 / 2 ^ ((20 - 0) / Mempool.decayHalflife 8 600 1000))
      ∧ Mempool.decayHalflife 8 600 1000
          = (if 4 * 600 < 1000 then 8 / 4 else if 2 * 600 < 1000 then 8 / 2 else 8) :=
  c6_eviction_fee_bump_and_decay ⟨0, 0, true, 100, 1000⟩ ⟨2000, 0, true, 100, 1000⟩
    5 10 8 20 600 (by decide) (by decide) (by decide)

/-- C7 (amended): on a VerifyError from a peer's transaction or block, the
pool both sends the reject packet and applies the score, but only when the
error's score is not -1; at score -1 neither happens (with sendReject
modelled from the spec as reject plus setMisbehavior). A VerifyError built
with a null score carries score -1. -/
theorem c7_reject_and_score_gated_together (txHash blockHash badPrevblkReason : Nat)
    (headersMode : Bool) (err : Pool.VerifyError) :
    ((∃ c r, Pool.Action.rejectPacket c r ∈ Pool.handleTXError txHash err)
        ↔ err.score ≠ -1)
      ∧ ((Pool.Action.misbehave err.score ∈ Pool.handleTXError txHash err)
          ↔ err.score ≠ -1)
      ∧ ((∃ c r, Pool.Action.rejectPacket c r
            ∈ Pool.handleBlockError blockHash headersMode badPrevblkReason err)
          ↔ err.score ≠ -1)
      ∧ ((Pool.Action.misbehave err.score
            ∈ Pool.handleBlockError blockHash headersMode badPrevblkReason err)
          ↔ err.score ≠ -1)
      ∧ (∀ code reason, (Pool.mkVerifyError code reason none).score = -1) := by
  by_cases hs : err.score = -1 <;>
    by_cases hb : err.reason = some badPrevblkReason <;>
      cases headersMode <;>
        simp [Pool.handleTXError, Pool.handleBlockError, Pool.sendReject,
          Pool.mkVerifyError, hs, hb]

/-- C7 (counterexample to the original claim): a VerifyError built with a
null score (hence score -1) from a peer's transaction produces no reject
packet and, contrary to the claim, no setMisbehavior call either: the code
guards the whole sendReject call, score application included, behind
score distinct from -1. -/
theorem c7_score_neg_one_skips_misbehavior :
    (Pool.mkVerifyError 3 7 none).score = -1
      ∧ Pool.handleTXError 5 (Pool.mkVerifyError 3 7 none)
          = [Pool.Action.rejectsAdd 5]
      ∧ ∀ s : Int, Pool.Action.misbehave s
          ∉ Pool.handleTXError 5 (Pool.mkVerifyError 3 7 none) := by
  refine ⟨rfl, rfl, ?_⟩
  intro s hs
  simp [Pool.handleTXError, Pool.mkVerifyError, Pool.sendReject] at hs

/-- C4: with a non-negative score, setMisbehavior never decreases the peer's
banScore; when the accumulated score reaches the BAN_SCORE threshold the host
is recorded in the misbehaving map with the current timestamp, the peer is
destroyed and true is returned; and at any time before that timestamp plus
BAN_TIME the host reads as misbehaving and a new inbound connection from it
is refused (the timestamp must be nonzero: a 0 timestamp fails the JS
truthiness test in isMisbehaving). -/
theorem c4_ban_monotonicity_threshold_and_refusal
    (banScoreLimit : Int) (banTime : Nat) (mis : List (Nat × Nat)) (p : Pool.Peer)
    (score : Int) (now now2 leeches maxLeeches : Nat)
    (hscore : 0 ≤ score)
    (hthresh : banScoreLimit ≤ p.banScore + score)
    (hnow : 0 < now)
    (hnow2 : now2 < now + banTime)
    (hleech : leeches < maxLeeches) :
    p.banScore ≤ (Pool.setMisbehavior banScoreLimit mis p score now).2.1.banScore
      ∧ (Pool.setMisbehavior banScoreLimit mis p score now).1 = (p.host, now) :: mis
      ∧ (Pool.setMisbehavior banScoreLimit mis p score now).2.1.connected = false
      ∧ (Pool.setMisbehavior banScoreLimit mis p score now).2.2 = true
      ∧ (Pool.isMisbehaving banTime ((p.host, now) :: mis) p.host now2).2 = true
      ∧ Pool.acceptConnection banTime ((p.host, now) :: mis) (some p.host)
          leeches maxLeeches now2 = false := by
  have hset : Pool.setMisbehavior banScoreLimit mis p score now
      = ((p.host, now) :: mis,
          { p with banScore := p.banScore + score, connected := false }, true) := by
    simp [Pool.setMisbehavior, hthresh]
  have hmis : (Pool.isMisbehaving banTime ((p.host, now) :: mis) p.host now2).2
      = true := by
    have hfind : Pool.lookupMis ((p.host, now) :: mis) p.host = some now := by
      simp [Pool.lookupMis, List.find?]
    rw [Pool.isMisbehaving, hfind]
    have h0 : ¬ now = 0 := by omega
    have h1 : ¬ now + banTime < now2 := by omega
    simp only [if_neg h0, if_neg h1]
  refine ⟨?_, ?_, ?_, ?_, hmis, ?_⟩
  · rw [hset]; simpa using hscore
  · rw [hset]
  · rw [hset]
  · rw [hset]
  · rw [Pool.acceptConnection]
    rw [if_neg (by omega)]
    simp [hmis]

/-- Witness for C4: a peer of host 7 with banScore 95 scored 10 against the
default threshold 100 and ban time 86400, banned at second 1000 and probed at
second 5000 with room in the leech table. -/
theorem c4_ban_monotonicity_threshold_and_refusal_witness :
    (⟨7, 95, true⟩ : Pool.Peer).banScore
        ≤ (Pool.setMisbehavior 100 [] ⟨7, 95, true⟩ 10 1000).2.1.banScore
      ∧ (Pool.setMisbehavior 100 [] ⟨7, 95, true⟩ 10 1000).1 = [(7, 1000)]
      ∧ (Pool.setMisbehavior 100 [] ⟨7, 95, true⟩ 10 1000).2.1.connected = false
      ∧ (Pool.setMisbehavior 100 [] ⟨7, 95, true⟩ 10 1000).2.2 = true
      ∧ (Pool.isMisbehaving 86400 [(7, 1000)] 7 5000).2 = true
      ∧ Pool.acceptConnection 86400 [(7, 1000)] (some 7) 0 8 5000 = false :=
  c4_ban_monotonicity_threshold_and_refusal 100 86400 [] ⟨7, 95, true⟩
    10 1000 5000 0 8 (by decide) (by decide) (by decide) (by decide) (by decide)

/-- C1: connecting a non-genesis block whose transactions' inputs are filled
with their referenced coins and then disconnecting it restores the c/ and u/
keyspaces exactly; the undo record put for the block holds exactly the coins
the block's non-coinbase inputs removed, in input-traversal order, and
disconnect deletes it. The hypotheses state that the inputs are filled from
the store, that the block's outputs and its undo record are fresh, and that a
valid block spends pairwise distinct coins, creates pairwise distinct outputs
and spends nothing it creates. -/
theorem c1_connect_disconnect_restores_keyspaces
    (m : ChainDB.Key → Option ChainDB.Val) (blockHash : Nat) (txs : List ChainDB.MTx)
    (hfill : ∀ tx ∈ txs, ∀ p ∈ ChainDB.inPairs tx, m p.1 = some p.2)
    (hfresh : ∀ tx ∈ txs, ∀ k ∈ ChainDB.outKeys tx, m k = none)
    (hdisj : ∀ t1 ∈ txs, ∀ t2 ∈ txs, ∀ k ∈ ChainDB.inKeys t1, k ∉ ChainDB.outKeys t2)
    (hins : txs.Pairwise (fun t1 t2 => ∀ k ∈ ChainDB.inKeys t1, k ∉ ChainDB.inKeys t2))
    (houts : txs.Pairwise (fun t1 t2 => ∀ k ∈ ChainDB.outKeys t1, k ∉ ChainDB.outKeys t2))
    (hundo : m (ChainDB.Key.undo blockHash) = none) :
    (∀ k, ChainDB.applyOps (ChainDB.applyOps m (ChainDB.connectOps blockHash txs))
        (ChainDB.disconnectOps blockHash txs) k = m k)
      ∧ ChainDB.applyOps m (ChainDB.connectOps blockHash txs) (ChainDB.Key.undo blockHash)
          = (if ChainDB.blockUndo txs = [] then none
             else some (ChainDB.Val.undo (ChainDB.blockUndo txs)))
      ∧ ChainDB.blockUndo txs
          = (txs.filter (fun tx => !tx.coinbase)).flatMap
              (fun tx => tx.inputs.map (fun i => i.coin)) := by
  have hundoOps : ∀ k, k ≠ ChainDB.Key.undo blockHash →
      ChainDB.applyOps m (ChainDB.connectOps blockHash txs) k
        = ChainDB.applyOps m (ChainDB.blockConnectOps txs) k := by
    intro k hk
    rw [ChainDB.connectOps, ChainDB.applyOps_append]
    by_cases hu : ChainDB.blockUndo txs = []
    · rw [if_pos hu]; rfl
    · rw [if_neg hu, ChainDB.applyOps_singleton]
      simp only [ChainDB.applyOp]
      rw [if_neg hk]
  have hconn_undo : ChainDB.applyOps m (ChainDB.blockConnectOps txs)
      (ChainDB.Key.undo blockHash) = m (ChainDB.Key.undo blockHash) := by
    refine ChainDB.applyOps_untouched _ m _ ?_
    intro op hop
    rcases ChainDB.blockConnectOps_key_coin txs op hop with ⟨o, ho⟩
    simp [ho]
  refine ⟨?_, ?_, ?_⟩
  · intro k
    rw [ChainDB.disconnectOps, ChainDB.applyOps_append, ChainDB.applyOps_singleton]
    simp only [ChainDB.applyOp]
    by_cases hk : k = ChainDB.Key.undo blockHash
    · rw [if_pos hk, hk, hundo]
    · rw [if_neg hk]
      have h1 : ChainDB.applyOps m (ChainDB.connectOps blockHash txs) k
          = ChainDB.applyOps m (ChainDB.blockConnectOps txs) k := hundoOps k hk
      rw [ChainDB.applyOps_congr_at _ _ _ k h1]
      exact ChainDB.block_roundtrip txs m hfill hfresh hdisj hins houts k
  · rw [ChainDB.connectOps, ChainDB.applyOps_append]
    by_cases hu : ChainDB.blockUndo txs = []
    · rw [if_pos hu]
      show ChainDB.applyOps m (ChainDB.blockConnectOps txs) _ = _
      rw [hconn_undo, hundo, if_pos hu]
    · simp only [if_neg hu]
      rw [ChainDB.applyOps_singleton]
      simp [ChainDB.applyOp]
  · exact ChainDB.blockUndo_eq txs

/-- Witness for C1: a one-transaction block on block hash 9 spending the
single stored coin at outpoint (100, 0) of value 55 and creating the
spendable output (1, 0) of value 70, against a store holding exactly that
one coin and no undo record. -/
theorem c1_connect_disconnect_restores_keyspaces_witness :
    (∀ k, ChainDB.applyOps (ChainDB.applyOps
        (fun k2 => if k2 = ChainDB.Key.coin ⟨100, 0⟩
          then some (ChainDB.Val.coin 55) else none)
        (ChainDB.connectOps 9 [⟨1, false, [⟨⟨100, 0⟩, 55⟩], [⟨false, 70⟩]⟩]))
        (ChainDB.disconnectOps 9 [⟨1, false, [⟨⟨100, 0⟩, 55⟩], [⟨false, 70⟩]⟩]) k
        = (fun k2 => if k2 = ChainDB.Key.coin ⟨100, 0⟩
            then some (ChainDB.Val.coin 55) else none) k)
      ∧ ChainDB.applyOps
          (fun k2 => if k2 = ChainDB.Key.coin ⟨100, 0⟩
            then some (ChainDB.Val.coin 55) else none)
          (ChainDB.connectOps 9 [⟨1, false, [⟨⟨100, 0⟩, 55⟩], [⟨false, 70⟩]⟩])
          (ChainDB.Key.undo 9)
          = (if ChainDB.blockUndo [⟨1, false, [⟨⟨100, 0⟩, 55⟩], [⟨false, 70⟩]⟩] = []
             then none
             else some (ChainDB.Val.undo
               (ChainDB.blockUndo [⟨1, false, [⟨⟨100, 0⟩, 55⟩], [⟨false, 70⟩]⟩])))
      ∧ ChainDB.blockUndo [⟨1, false, [⟨⟨100, 0⟩, 55⟩], [⟨false, 70⟩]⟩]
          = (([⟨1, false, [⟨⟨100, 0⟩, 55⟩], [⟨false, 70⟩]⟩] : List ChainDB.MTx).filter
              (fun tx => !tx.coinbase)).flatMap
              (fun tx => tx.inputs.map (fun i => i.coin)) :=
  c1_connect_disconnect_restores_keyspaces
    (fun k2 => if k2 = ChainDB.Key.coin ⟨100, 0⟩
      then some (ChainDB.Val.coin 55) else none)
    9 [⟨1, false, [⟨⟨100, 0⟩, 55⟩], [⟨false, 70⟩]⟩]
    (by decide) (by decide) (by decide) (by decide) (by decide) (by decide)
